import Mathlib

/-!
Formal model of the bond-trading pipeline in MTH9815-Final_Project.

Shallow embedding conventions:
* C++ `double` prices are modelled as `ℚ` (every price in the system is a
  dyadic rational of the form `b + xy/32 + z/256`, exactly representable in
  `double`, and the code only adds, subtracts, scales and compares them).
* C++ `long` quantities are modelled as `Int`; the two internal event
  counters (`executionCount`, `bookedCount`) start at 0 and are only ever
  incremented, so they are modelled as `Nat`.
* `std::map<K,V>` / `std::unordered_map<K,V>` are modelled as association
  lists `List (K × V)`; iteration order of the model is first-insertion
  order (for `unordered_map` the C++ order is unspecified, and no claim
  depends on it).
* Listener registries are modelled as `List Nat` of listener identifiers;
  a synchronous fan-out is modelled as the list of `(listener, event)`
  pairs produced, in registration order.
* Fallible code (out-of-bounds vector access, `std::map::at` on a missing
  key, `throw`) is modelled with `Option`/`Except`.
-/

namespace FinTrading

/-! ### Association-list primitives shared by the services

`mapSet m k v` models `m[k] = v;` on a `std::map`.
`mapFind m k` models `m.at(k)` (`none` = `std::out_of_range` thrown).
`mapGetD m k d` models `m[k]` read access, which value-initializes a
default entry for an absent key.
`bumpAssoc m k v` models `m[k] += v;`.
-/

def mapSet {κ α : Type} [DecidableEq κ] : List (κ × α) → κ → α → List (κ × α)
  | [], k, v => [(k, v)]
  | (k0, v0) :: rest, k, v =>
    if k0 = k then (k0, v) :: rest else (k0, v0) :: mapSet rest k v

def mapFind {κ α : Type} [DecidableEq κ] : List (κ × α) → κ → Option α
  | [], _ => none
  | (k0, v0) :: rest, k => if k0 = k then some v0 else mapFind rest k

def mapGetD {κ α : Type} [DecidableEq κ] (m : List (κ × α)) (k : κ) (d : α) : α :=
  (mapFind m k).getD d

def bumpAssoc {κ : Type} [DecidableEq κ] : List (κ × Int) → κ → Int → List (κ × Int)
  | [], k, v => [(k, v)]
  | (k0, v0) :: rest, k, v =>
    if k0 = k then (k0, v0 + v) :: rest else (k0, v0) :: bumpAssoc rest k v

/-- Keys of an association list, in storage order. -/
def keysOf {κ α : Type} (m : List (κ × α)) : List κ := m.map (fun kv => kv.1)

/-- Sum of the values stored at key `k` (the association lists built by the
model keep keys unique, so this is the value at `k`, or 0 if absent). -/
def valueAt {κ : Type} [DecidableEq κ] (m : List (κ × Int)) (k : κ) : Int :=
  ((m.filter (fun kv => kv.1 = k)).map (fun kv => kv.2)).sum

/-- Total of all stored values. -/
def sumVals {κ : Type} (m : List (κ × Int)) : Int := (m.map (fun kv => kv.2)).sum

theorem mapFind_mapSet {κ α : Type} [DecidableEq κ]
    (m : List (κ × α)) (k k' : κ) (v : α) :
    mapFind (mapSet m k v) k' = if k = k' then some v else mapFind m k' := by
  induction m with
  | nil =>
    by_cases h : k = k' <;> simp [mapSet, mapFind, h]
  | cons kv rest ih =>
    obtain ⟨k0, v0⟩ := kv
    by_cases h0 : k0 = k
    · subst h0
      by_cases h : k0 = k' <;> simp [mapSet, mapFind, h]
    · by_cases h : k0 = k'
      · subst h
        have : ¬ k = k0 := fun he => h0 he.symm
        simp [mapSet, mapFind, h0, this]
      · simp [mapSet, mapFind, h0, h, ih]

theorem mapGetD_mapSet {κ α : Type} [DecidableEq κ]
    (m : List (κ × α)) (k k' : κ) (v : α) (d : α) :
    mapGetD (mapSet m k v) k' d = if k = k' then v else mapGetD m k' d := by
  by_cases h : k = k' <;> simp [mapGetD, mapFind_mapSet, h]

theorem valueAt_nil {κ : Type} [DecidableEq κ] (k : κ) :
    valueAt ([] : List (κ × Int)) k = 0 := rfl

theorem valueAt_cons {κ : Type} [DecidableEq κ]
    (kv : κ × Int) (rest : List (κ × Int)) (k : κ) :
    valueAt (kv :: rest) k = (if kv.1 = k then kv.2 else 0) + valueAt rest k := by
  by_cases h : kv.1 = k <;> simp [valueAt, List.filter_cons, h]

theorem sumVals_cons {κ : Type} (kv : κ × Int) (rest : List (κ × Int)) :
    sumVals (kv :: rest) = kv.2 + sumVals rest := by
  simp [sumVals]

theorem keysOf_cons {κ α : Type} (kv : κ × α) (rest : List (κ × α)) :
    keysOf (kv :: rest) = kv.1 :: keysOf rest := rfl

theorem valueAt_bumpAssoc {κ : Type} [DecidableEq κ]
    (m : List (κ × Int)) (k k' : κ) (v : Int) :
    valueAt (bumpAssoc m k v) k' = valueAt m k' + (if k = k' then v else 0) := by
  induction m with
  | nil =>
    by_cases h : k = k' <;> simp [bumpAssoc, valueAt_cons, valueAt_nil, h]
  | cons kv rest ih =>
    obtain ⟨k0, v0⟩ := kv
    by_cases h0 : k0 = k
    · subst h0
      rw [show bumpAssoc ((k0, v0) :: rest) k0 v = (k0, v0 + v) :: rest by
        simp [bumpAssoc]]
      rw [valueAt_cons, valueAt_cons]
      by_cases h : k0 = k' <;> simp [h] <;> ring
    · rw [show bumpAssoc ((k0, v0) :: rest) k v = (k0, v0) :: bumpAssoc rest k v by
        simp [bumpAssoc, h0]]
      rw [valueAt_cons, valueAt_cons, ih]
      ring

theorem sumVals_bumpAssoc {κ : Type} [DecidableEq κ]
    (m : List (κ × Int)) (k : κ) (v : Int) :
    sumVals (bumpAssoc m k v) = sumVals m + v := by
  induction m with
  | nil => simp [bumpAssoc, sumVals]
  | cons kv rest ih =>
    obtain ⟨k0, v0⟩ := kv
    by_cases h0 : k0 = k
    · subst h0
      rw [show bumpAssoc ((k0, v0) :: rest) k0 v = (k0, v0 + v) :: rest by
        simp [bumpAssoc]]
      rw [sumVals_cons, sumVals_cons]
      ring
    · rw [show bumpAssoc ((k0, v0) :: rest) k v = (k0, v0) :: bumpAssoc rest k v by
        simp [bumpAssoc, h0]]
      rw [sumVals_cons, sumVals_cons, ih]
      ring

theorem keysOf_bumpAssoc {κ : Type} [DecidableEq κ]
    (m : List (κ × Int)) (k : κ) (v : Int) :
    keysOf (bumpAssoc m k v) = if k ∈ keysOf m then keysOf m else keysOf m ++ [k] := by
  induction m with
  | nil => simp [bumpAssoc, keysOf]
  | cons kv rest ih =>
    obtain ⟨k0, v0⟩ := kv
    by_cases h0 : k0 = k
    · subst h0
      rw [show bumpAssoc ((k0, v0) :: rest) k0 v = (k0, v0 + v) :: rest by
        simp [bumpAssoc]]
      simp [keysOf_cons]
    · have hne : ¬ k = k0 := fun he => h0 he.symm
      rw [show bumpAssoc ((k0, v0) :: rest) k v = (k0, v0) :: bumpAssoc rest k v by
        simp [bumpAssoc, h0]]
      rw [keysOf_cons, keysOf_cons, ih]
      by_cases hm : k ∈ keysOf rest <;> simp [hm, hne]

theorem bumpAssoc_not_mem {κ : Type} [DecidableEq κ]
    (m : List (κ × Int)) (k : κ) (v : Int) (h : k ∉ keysOf m) :
    bumpAssoc m k v = m ++ [(k, v)] := by
  induction m with
  | nil => simp [bumpAssoc]
  | cons kv rest ih =>
    obtain ⟨k0, v0⟩ := kv
    rw [keysOf_cons] at h
    simp only [List.mem_cons, not_or] at h
    have h0 : ¬ k0 = k := fun he => h.1 he.symm
    rw [show bumpAssoc ((k0, v0) :: rest) k v = (k0, v0) :: bumpAssoc rest k v by
      simp [bumpAssoc, h0]]
    rw [ih h.2]
    simp

/-! ### Decimal digit printing and parsing

These model `std::to_string` on non-negative integers and the digit-string
behaviour of `std::stod`/`std::stoi` (utility.hpp and the connectors only
ever hand those functions strings of decimal digits).
-/

/-- The ASCII character for a decimal digit value (0..9). -/
def digitChar' (n : Nat) : Char :=
  match n with
  | 0 => '0' | 1 => '1' | 2 => '2' | 3 => '3' | 4 => '4'
  | 5 => '5' | 6 => '6' | 7 => '7' | 8 => '8' | 9 => '9'
  | _ => '*'

/-- The decimal value of an ASCII digit character (codepoints 48-57). -/
def charToDigit (c : Char) : Option Nat :=
  if 48 ≤ c.toNat ∧ c.toNat ≤ 57 then some (c.toNat - 48) else none

/-- Fuel-indexed decimal printer (the fuel only bounds the recursion depth;
`toDigits` supplies enough of it). -/
def toDigitsF : Nat → Nat → List Char
  | 0, _ => []
  | fuel + 1, n =>
    if n < 10 then [digitChar' n]
    else toDigitsF fuel (n / 10) ++ [digitChar' (n % 10)]

/-- Decimal digits of a natural number, models `std::to_string(long)` for
non-negative values. -/
def toDigits (n : Nat) : List Char := toDigitsF (n + 1) n

/-- Models `std::to_string(int)`, including the sign for negatives. -/
def intToChars (i : Int) : List Char :=
  if i < 0 then '-' :: toDigits (-i).toNat else toDigits i.toNat

/-- Models `std::to_string` of a counter value as a Lean `String`. -/
def natToString (n : Nat) : String := String.mk (toDigits n)

/-- Digit-string parser accumulator, models the digit loop of
`std::stod`/`std::stoi` on all-digit input. -/
def parseNatAux (a : Nat) : List Char → Option Nat
  | [] => some a
  | c :: cs =>
    match charToDigit c with
    | none => none
    | some d => parseNatAux (10 * a + d) cs

/-- Parses a non-empty string of decimal digits (`none` models the
exception thrown on input that starts with no digit). -/
def parseNat : List Char → Option Nat
  | [] => none
  | c :: cs => parseNatAux 0 (c :: cs)

theorem charToDigit_digitChar' (n : Nat) (h : n < 10) :
    charToDigit (digitChar' n) = some n := by
  interval_cases n <;> rfl

theorem charToDigit_ne_dash (c : Char) (d : Nat) (h : charToDigit c = some d) :
    c ≠ '-' := by
  intro he
  subst he
  rw [show charToDigit '-' = none from rfl] at h
  cases h

theorem toDigitsF_all_digits (fuel n : Nat) (h : n < fuel) :
    ∀ c ∈ toDigitsF fuel n, (charToDigit c).isSome := by
  induction fuel generalizing n with
  | zero => omega
  | succ fuel ih =>
    intro c hc
    by_cases hn : n < 10
    · simp [toDigitsF, hn] at hc
      subst hc
      simp [charToDigit_digitChar' n hn]
    · simp [toDigitsF, hn] at hc
      rcases hc with hc | hc
      · exact ih (n / 10) (by omega) c hc
      · subst hc
        simp [charToDigit_digitChar' (n % 10) (Nat.mod_lt _ (by omega))]

theorem toDigitsF_ne_nil (fuel n : Nat) (h : n < fuel) :
    toDigitsF fuel n ≠ [] := by
  cases fuel with
  | zero => omega
  | succ fuel =>
    by_cases hn : n < 10 <;> simp [toDigitsF, hn]

theorem parseNatAux_append (l1 l2 : List Char) (a : Nat) :
    parseNatAux a (l1 ++ l2)
      = match parseNatAux a l1 with
        | none => none
        | some b => parseNatAux b l2 := by
  induction l1 generalizing a with
  | nil => simp [parseNatAux]
  | cons c cs ih =>
    cases hcd : charToDigit c with
    | none => simp [parseNatAux, hcd]
    | some d => simp [parseNatAux, hcd, ih]

theorem parseNatAux_toDigitsF (fuel n a : Nat) (h : n < fuel) :
    parseNatAux a (toDigitsF fuel n)
      = some (a * 10 ^ (toDigitsF fuel n).length + n) := by
  induction fuel generalizing n a with
  | zero => omega
  | succ fuel ih =>
    by_cases hn : n < 10
    · simp [toDigitsF, hn, parseNatAux, charToDigit_digitChar' n hn]
      ring
    · have hdiv : n / 10 < fuel := by omega
      rw [show toDigitsF (fuel + 1) n
            = toDigitsF fuel (n / 10) ++ [digitChar' (n % 10)] by
          simp [toDigitsF, hn]]
      rw [parseNatAux_append, ih (n / 10) a hdiv]
      simp [parseNatAux, charToDigit_digitChar' (n % 10) (Nat.mod_lt _ (by omega))]
      generalize (toDigitsF fuel (n / 10)).length = k
      calc 10 * (a * 10 ^ k + n / 10) + n % 10
          = a * (10 ^ k * 10) + (10 * (n / 10) + n % 10) := by ring
        _ = a * 10 ^ (k + 1) + n := by rw [Nat.div_add_mod, pow_succ]

theorem parseNat_toDigits (n : Nat) : parseNat (toDigits n) = some n := by
  have hne := toDigitsF_ne_nil (n + 1) n (by omega)
  have hval := parseNatAux_toDigitsF (n + 1) n 0 (by omega)
  unfold toDigits
  cases hd : toDigitsF (n + 1) n with
  | nil => exact absurd hd hne
  | cons c cs =>
    rw [hd] at hval
    simpa [parseNat] using hval

theorem toDigits_all_digits (n : Nat) :
    ∀ c ∈ toDigits n, (charToDigit c).isSome :=
  toDigitsF_all_digits (n + 1) n (by omega)

/-- A single-digit number prints as its digit character. -/
theorem toDigits_small (n : Nat) (h : n < 10) : toDigits n = [digitChar' n] := by
  simp [toDigits, toDigitsF, h]

/-- A two-digit number prints as its two digit characters. -/
theorem toDigits_two (n : Nat) (h1 : 10 ≤ n) (h2 : n < 100) :
    toDigits n = [digitChar' (n / 10), digitChar' (n % 10)] := by
  have h10 : n / 10 < 10 := by omega
  have hns : ¬ n < 10 := by omega
  obtain ⟨f, hf⟩ : ∃ f, n = f + 1 := ⟨n - 1, by omega⟩
  have step1 : toDigits n = toDigitsF n (n / 10) ++ [digitChar' (n % 10)] := by
    simp [toDigits, toDigitsF, hns]
  have step2 : toDigitsF n (n / 10) = [digitChar' (n / 10)] := by
    rw [hf] at h10 ⊢
    simp [toDigitsF, h10]
  rw [step1, step2]
  rfl

/-! ### Market data model (marketdataservice.hpp) -/

/-- Side for market data. -/
inductive PricingSide
  | BID
  | OFFER
  deriving DecidableEq

/-- An order with price, quantity, and pricing side. -/
structure Order where
  price : ℚ
  quantity : Int
  side : PricingSide
  deriving DecidableEq

/-- A bid and offer order pair. -/
structure BidOffer where
  bidOrder : Order
  offerOrder : Order
  deriving DecidableEq

/-- An order book with a bid stack and an offer stack.  The product is
represented by its product id (the services only ever call
`GetProduct().GetProductId()`). -/
structure OrderBook where
  productId : String
  bidStack : List Order
  offerStack : List Order
  deriving DecidableEq

/-- How a best-price query can fail.  `OrderBook::GetBidOffer` reads
`bidStack[0]` / `offerStack[0]` without any emptiness check, so on an empty
stack it performs an out-of-bounds `std::vector::operator[]` access
(undefined behaviour), modelled as `outOfBounds`.  `emptyBook` models the
defined error the specification describes; no code path produces it. -/
inductive BookAccessErr
  | emptyBook
  | outOfBounds
  deriving DecidableEq

/-- The bid-side selection loop of `OrderBook::GetBidOffer`: keep the
current best unless a strictly higher price appears. -/
def bestBidLoop (acc : Order) (l : List Order) : Order :=
  l.foldl (fun best o => if o.price > best.price then o else best) acc

/-- The offer-side selection loop of `OrderBook::GetBidOffer`: keep the
current best unless a strictly lower price appears. -/
def bestOfferLoop (acc : Order) (l : List Order) : Order :=
  l.foldl (fun best o => if o.price < best.price then o else best) acc

namespace OrderBook

/-- `OrderBook<T>::GetBidOffer` (marketdataservice.hpp lines 264-293):
start from element 0 of each stack and scan for the highest bid and the
lowest offer. -/
def GetBidOffer (b : OrderBook) : Except BookAccessErr BidOffer :=
  match b.bidStack with
  | [] => .error .outOfBounds
  | b0 :: brest =>
    let bestBid := bestBidLoop b0 brest
    match b.offerStack with
    | [] => .error .outOfBounds
    | o0 :: orest =>
      let bestOffer := bestOfferLoop o0 orest
      .ok ⟨bestBid, bestOffer⟩

end OrderBook

/-- `MarketDataService<T>::GetBestBidOffer`: delegates to the stored book's
`GetBidOffer` (an absent product id auto-creates a default, empty book). -/
def GetBestBidOffer (orderBooks : List (String × OrderBook)) (productId : String) :
    Except BookAccessErr BidOffer :=
  (mapGetD orderBooks productId ⟨"", [], []⟩).GetBidOffer

theorem bestBidLoop_spec (l : List Order) (acc : Order) :
    ∃ l1 l2, acc :: l = l1 ++ bestBidLoop acc l :: l2 ∧
      (∀ o ∈ acc :: l, o.price ≤ (bestBidLoop acc l).price) ∧
      (∀ o ∈ l1, o.price < (bestBidLoop acc l).price) := by
  induction l generalizing acc with
  | nil =>
    refine ⟨[], [], by simp [bestBidLoop], ?_, by simp⟩
    intro o ho
    simp [bestBidLoop] at ho ⊢
    simp [ho]
  | cons y ys ih =>
    by_cases hy : y.price > acc.price
    · have hstep : bestBidLoop acc (y :: ys) = bestBidLoop y ys := by
        simp [bestBidLoop, hy]
      obtain ⟨l1, l2, hdec, hmax, hpre⟩ := ih y
      have hyle : y.price ≤ (bestBidLoop y ys).price := hmax y (by simp)
      refine ⟨acc :: l1, l2, ?_, ?_, ?_⟩
      · rw [hstep]
        simpa using hdec
      · intro o ho
        rw [hstep]
        rcases List.mem_cons.mp ho with rfl | ho
        · exact le_trans (le_of_lt hy) hyle
        · exact hmax o ho
      · intro o ho
        rw [hstep]
        rcases List.mem_cons.mp ho with rfl | ho
        · exact lt_of_lt_of_le hy hyle
        · exact hpre o ho
    · have hstep : bestBidLoop acc (y :: ys) = bestBidLoop acc ys := by
        simp [bestBidLoop, hy]
      have hyle : y.price ≤ acc.price := le_of_not_lt hy
      obtain ⟨l1, l2, hdec, hmax, hpre⟩ := ih acc
      have haccle : acc.price ≤ (bestBidLoop acc ys).price := hmax acc (by simp)
      cases l1 with
      | nil =>
        have hacc : bestBidLoop acc ys = acc := by
          have h := congrArg (fun t => t.head?) hdec
          simp at h
          exact h.symm
        refine ⟨[], y :: ys, by simp [hstep, hacc], ?_, by simp⟩
        intro o ho
        rw [hstep, hacc]
        rcases List.mem_cons.mp ho with rfl | ho
        · exact le_refl _
        · rcases List.mem_cons.mp ho with rfl | ho
          · exact hyle
          · have h := hmax o (List.mem_cons_of_mem acc ho)
            rw [hacc] at h
            exact h
      | cons a l1' =>
        have hdec' := hdec
        simp only [List.cons_append, List.cons.injEq] at hdec'
        obtain ⟨ha, hys⟩ := hdec'
        have hacclt : acc.price < (bestBidLoop acc ys).price := by
          have h := hpre a (by simp)
          rw [← ha] at h
          exact h
        refine ⟨acc :: y :: l1', l2, ?_, ?_, ?_⟩
        · rw [hstep]
          simp only [List.cons_append]
          rw [← hys]
        · intro o ho
          rw [hstep]
          rcases List.mem_cons.mp ho with rfl | ho
          · exact haccle
          · rcases List.mem_cons.mp ho with rfl | ho
            · exact le_trans hyle haccle
            · exact hmax o (List.mem_cons_of_mem acc ho)
        · intro o ho
          rw [hstep]
          rcases List.mem_cons.mp ho with rfl | ho
          · exact hacclt
          · rcases List.mem_cons.mp ho with rfl | ho
            · exact lt_of_le_of_lt hyle hacclt
            · exact hpre o (List.mem_cons_of_mem a ho)

theorem bestOfferLoop_spec (l : List Order) (acc : Order) :
    ∃ l1 l2, acc :: l = l1 ++ bestOfferLoop acc l :: l2 ∧
      (∀ o ∈ acc :: l, (bestOfferLoop acc l).price ≤ o.price) ∧
      (∀ o ∈ l1, (bestOfferLoop acc l).price < o.price) := by
  induction l generalizing acc with
  | nil =>
    refine ⟨[], [], by simp [bestOfferLoop], ?_, by simp⟩
    intro o ho
    simp [bestOfferLoop] at ho ⊢
    simp [ho]
  | cons y ys ih =>
    by_cases hy : y.price < acc.price
    · have hstep : bestOfferLoop acc (y :: ys) = bestOfferLoop y ys := by
        simp [bestOfferLoop, hy]
      obtain ⟨l1, l2, hdec, hmin, hpre⟩ := ih y
      have hyge : (bestOfferLoop y ys).price ≤ y.price := hmin y (by simp)
      refine ⟨acc :: l1, l2, ?_, ?_, ?_⟩
      · rw [hstep]
        simpa using hdec
      · intro o ho
        rw [hstep]
        rcases List.mem_cons.mp ho with rfl | ho
        · exact le_trans hyge (le_of_lt hy)
        · exact hmin o ho
      · intro o ho
        rw [hstep]
        rcases List.mem_cons.mp ho with rfl | ho
        · exact lt_of_le_of_lt hyge hy
        · exact hpre o ho
    · have hstep : bestOfferLoop acc (y :: ys) = bestOfferLoop acc ys := by
        simp [bestOfferLoop, hy]
      have hyge : acc.price ≤ y.price := le_of_not_lt hy
      obtain ⟨l1, l2, hdec, hmin, hpre⟩ := ih acc
      have haccge : (bestOfferLoop acc ys).price ≤ acc.price := hmin acc (by simp)
      cases l1 with
      | nil =>
        have hacc : bestOfferLoop acc ys = acc := by
          have h := congrArg (fun t => t.head?) hdec
          simp at h
          exact h.symm
        refine ⟨[], y :: ys, by simp [hstep, hacc], ?_, by simp⟩
        intro o ho
        rw [hstep, hacc]
        rcases List.mem_cons.mp ho with rfl | ho
        · exact le_refl _
        · rcases List.mem_cons.mp ho with rfl | ho
          · exact hyge
          · have h := hmin o (List.mem_cons_of_mem acc ho)
            rw [hacc] at h
            exact h
      | cons a l1' =>
        have hdec' := hdec
        simp only [List.cons_append, List.cons.injEq] at hdec'
        obtain ⟨ha, hys⟩ := hdec'
        have haccgt : (bestOfferLoop acc ys).price < acc.price := by
          have h := hpre a (by simp)
          rw [← ha] at h
          exact h
        refine ⟨acc :: y :: l1', l2, ?_, ?_, ?_⟩
        · rw [hstep]
          simp only [List.cons_append]
          rw [← hys]
        · intro o ho
          rw [hstep]
          rcases List.mem_cons.mp ho with rfl | ho
          · exact haccge
          · rcases List.mem_cons.mp ho with rfl | ho
            · exact le_trans haccge hyge
            · exact hmin o (List.mem_cons_of_mem acc ho)
        · intro o ho
          rw [hstep]
          rcases List.mem_cons.mp ho with rfl | ho
          · exact haccgt
          · rcases List.mem_cons.mp ho with rfl | ho
            · exact lt_of_lt_of_le haccgt hyge
            · exact hpre o (List.mem_cons_of_mem a ho)

/-- CLAIM C2 — For every OrderBook whose bid stack and offer stack are both
non-empty, `GetBidOffer`/`GetBestBidOffer` returns the bid order of maximum
price and the offer order of minimum price among the orders present, and
when several orders on a side share the extreme price, the first-seen one
is returned (all strictly earlier orders have strictly worse prices). -/
theorem C2_getBidOffer_extremes (b : OrderBook)
    (hb : b.bidStack ≠ []) (ho : b.offerStack ≠ []) :
    ∃ bo : BidOffer, b.GetBidOffer = .ok bo ∧
      (∃ l1 l2, b.bidStack = l1 ++ bo.bidOrder :: l2 ∧
        (∀ o ∈ b.bidStack, o.price ≤ bo.bidOrder.price) ∧
        (∀ o ∈ l1, o.price < bo.bidOrder.price)) ∧
      (∃ l1 l2, b.offerStack = l1 ++ bo.offerOrder :: l2 ∧
        (∀ o ∈ b.offerStack, bo.offerOrder.price ≤ o.price) ∧
        (∀ o ∈ l1, bo.offerOrder.price < o.price)) ∧
      (∀ m : List (String × OrderBook), mapFind m b.productId = some b →
        GetBestBidOffer m b.productId = .ok bo) := by
  cases hbs : b.bidStack with
  | nil => exact absurd hbs hb
  | cons b0 brest =>
    cases hos : b.offerStack with
    | nil => exact absurd hos ho
    | cons o0 orest =>
      refine ⟨⟨bestBidLoop b0 brest, bestOfferLoop o0 orest⟩, ?_, ?_, ?_, ?_⟩
      · simp [OrderBook.GetBidOffer, hbs, hos]
      · obtain ⟨l1, l2, hdec, hmax, hpre⟩ := bestBidLoop_spec brest b0
        exact ⟨l1, l2, hdec, hmax, hpre⟩
      · obtain ⟨l1, l2, hdec, hmin, hpre⟩ := bestOfferLoop_spec orest o0
        exact ⟨l1, l2, hdec, hmin, hpre⟩
      · intro m hm
        unfold GetBestBidOffer mapGetD
        rw [hm]
        simp [OrderBook.GetBidOffer, hbs, hos]

/-- Concrete book exercising C2, with a price tie on each side. -/
def bookC2 : OrderBook :=
  ⟨"912828V23",
   [⟨99, 100, .BID⟩, ⟨100, 200, .BID⟩, ⟨100, 300, .BID⟩],
   [⟨101, 400, .OFFER⟩, ⟨101, 500, .OFFER⟩]⟩

/-- Witness for C2 at a concrete order book. -/
theorem C2_getBidOffer_extremes_witness :
    bookC2.bidStack ≠ [] ∧ bookC2.offerStack ≠ [] ∧
      (∃ bo : BidOffer, bookC2.GetBidOffer = .ok bo ∧
        (∃ l1 l2, bookC2.bidStack = l1 ++ bo.bidOrder :: l2 ∧
          (∀ o ∈ bookC2.bidStack, o.price ≤ bo.bidOrder.price) ∧
          (∀ o ∈ l1, o.price < bo.bidOrder.price)) ∧
        (∃ l1 l2, bookC2.offerStack = l1 ++ bo.offerOrder :: l2 ∧
          (∀ o ∈ bookC2.offerStack, bo.offerOrder.price ≤ o.price) ∧
          (∀ o ∈ l1, bo.offerOrder.price < o.price)) ∧
        (∀ m : List (String × OrderBook), mapFind m bookC2.productId = some bookC2 →
          GetBestBidOffer m bookC2.productId = .ok bo)) :=
  ⟨by simp [bookC2], by simp [bookC2],
   C2_getBidOffer_extremes bookC2 (by simp [bookC2]) (by simp [bookC2])⟩

/-- Concrete book with an empty bid stack. -/
def bookEmptyBid : OrderBook := ⟨"912828V23", [], [⟨100, 10, .OFFER⟩]⟩

/-- Concrete book with an empty offer stack. -/
def bookEmptyOffer : OrderBook := ⟨"912828W22", [⟨100, 10, .BID⟩], []⟩

/-- CLAIM C3 (counterexample) — On a book with an empty bid stack the query
does not fail with the specified `EmptyBook` error: the code performs an
unchecked `bidStack[0]` access (out-of-bounds, undefined behaviour); no
code path constructs an `EmptyBook` error. -/
theorem C3_getBidOffer_empty_counterexample :
    OrderBook.GetBidOffer bookEmptyBid = .error .outOfBounds ∧
    OrderBook.GetBidOffer bookEmptyBid ≠ .error .emptyBook := by
  refine ⟨rfl, ?_⟩
  intro h
  rw [show OrderBook.GetBidOffer bookEmptyBid = .error .outOfBounds from rfl] at h
  injection h with h2
  cases h2

/-- CLAIM C3 (amended) — For every OrderBook in which the bid stack or the
offer stack is empty, `GetBidOffer` performs an unchecked out-of-bounds
element-0 access on the empty stack (undefined behaviour in C++, modelled
as `outOfBounds`); no `EmptyBook` check or error exists in the code. -/
theorem C3_getBidOffer_empty_amended (b : OrderBook)
    (h : b.bidStack = [] ∨ b.offerStack = []) :
    b.GetBidOffer = .error .outOfBounds := by
  rcases h with h | h
  · simp [OrderBook.GetBidOffer, h]
  · cases hb : b.bidStack with
    | nil => simp [OrderBook.GetBidOffer, hb]
    | cons x xs => simp [OrderBook.GetBidOffer, hb, h]

/-- Witness for the amended C3 at a concrete order book. -/
theorem C3_getBidOffer_empty_amended_witness :
    (bookEmptyOffer.bidStack = [] ∨ bookEmptyOffer.offerStack = []) ∧
      bookEmptyOffer.GetBidOffer = .error .outOfBounds :=
  ⟨Or.inr rfl, C3_getBidOffer_empty_amended bookEmptyOffer (Or.inr rfl)⟩

/-! ### Depth aggregation (`MarketDataService<T>::AggregateDepth`) -/

/-- The per-side accumulation loop of `AggregateDepth`:
`aggregated[price] += quantity` over the side's orders. -/
def accumulateSide (orders : List Order) : List (ℚ × Int) :=
  orders.foldl (fun m o => bumpAssoc m o.price o.quantity) []

/-- Rebuild one side from the accumulated price levels, tagging each level
with the side (`Order bidOrder(aggPrice, aggQty, BID)` etc.). -/
def aggSide (orders : List Order) (s : PricingSide) : List Order :=
  (accumulateSide orders).map (fun pq => ⟨pq.1, pq.2, s⟩)

/-- `MarketDataService<T>::AggregateDepth` (marketdataservice.hpp lines
361-413), as a function of the stored book: group each side by exact
price, summing quantities, and build a new book from the grouped levels.
(The service first looks the book up by product id; the lookup is the same
`mapGetD` used by `GetBestBidOffer`.) -/
def AggregateDepth (b : OrderBook) : OrderBook :=
  ⟨b.productId, aggSide b.bidStack .BID, aggSide b.offerStack .OFFER⟩

/-- The prices of a side, in storage order. -/
def pricesOf (l : List Order) : List ℚ := l.map (fun o => o.price)

/-- Total quantity a side carries at exactly price `p`. -/
def qtyAt (l : List Order) (p : ℚ) : Int :=
  ((l.filter (fun o => o.price = p)).map (fun o => o.quantity)).sum

theorem qtyAt_nil (p : ℚ) : qtyAt [] p = 0 := rfl

theorem qtyAt_cons (o : Order) (os : List Order) (p : ℚ) :
    qtyAt (o :: os) p = (if o.price = p then o.quantity else 0) + qtyAt os p := by
  by_cases h : o.price = p <;> simp [qtyAt, List.filter_cons, h]

theorem valueAt_accumulate_go (l : List Order) :
    ∀ (m : List (ℚ × Int)) (p : ℚ),
      valueAt (l.foldl (fun m o => bumpAssoc m o.price o.quantity) m) p
        = valueAt m p + qtyAt l p := by
  induction l with
  | nil => intro m p; simp [qtyAt_nil]
  | cons o os ih =>
    intro m p
    rw [List.foldl_cons, ih, valueAt_bumpAssoc, qtyAt_cons]
    ring

theorem qtyAt_map_pairs (m : List (ℚ × Int)) (s : PricingSide) (p : ℚ) :
    qtyAt (m.map (fun pq => Order.mk pq.1 pq.2 s)) p = valueAt m p := by
  induction m with
  | nil => rfl
  | cons kv rest ih =>
    rw [List.map_cons, qtyAt_cons, valueAt_cons, ih]

theorem qtyAt_aggSide (l : List Order) (s : PricingSide) (p : ℚ) :
    qtyAt (aggSide l s) p = qtyAt l p := by
  rw [aggSide, qtyAt_map_pairs, accumulateSide, valueAt_accumulate_go]
  simp [valueAt_nil]

theorem pricesOf_aggSide (l : List Order) (s : PricingSide) :
    pricesOf (aggSide l s) = keysOf (accumulateSide l) := by
  simp [pricesOf, aggSide, keysOf, List.map_map]

theorem mem_keysOf_bumpAssoc {κ : Type} [DecidableEq κ]
    (m : List (κ × Int)) (k k' : κ) (v : Int) :
    k' ∈ keysOf (bumpAssoc m k v) ↔ k' ∈ keysOf m ∨ k' = k := by
  by_cases hk : k ∈ keysOf m
  · rw [keysOf_bumpAssoc, if_pos hk]
    constructor
    · exact Or.inl
    · rintro (h | rfl)
      · exact h
      · exact hk
  · rw [keysOf_bumpAssoc, if_neg hk]
    simp

theorem nodup_keysOf_bumpAssoc {κ : Type} [DecidableEq κ]
    (m : List (κ × Int)) (k : κ) (v : Int) (h : (keysOf m).Nodup) :
    (keysOf (bumpAssoc m k v)).Nodup := by
  rw [keysOf_bumpAssoc]
  by_cases hk : k ∈ keysOf m
  · rw [if_pos hk]; exact h
  · rw [if_neg hk]
    simp [List.nodup_append, h, hk]

theorem nodup_keys_accumulate_go (l : List Order) :
    ∀ m : List (ℚ × Int), (keysOf m).Nodup →
      (keysOf (l.foldl (fun m o => bumpAssoc m o.price o.quantity) m)).Nodup := by
  induction l with
  | nil => intro m hm; simpa using hm
  | cons o os ih =>
    intro m hm
    rw [List.foldl_cons]
    exact ih _ (nodup_keysOf_bumpAssoc m o.price o.quantity hm)

theorem mem_keys_accumulate_go (l : List Order) :
    ∀ (m : List (ℚ × Int)) (p : ℚ),
      p ∈ keysOf (l.foldl (fun m o => bumpAssoc m o.price o.quantity) m)
        ↔ p ∈ keysOf m ∨ p ∈ pricesOf l := by
  induction l with
  | nil => intro m p; simp [pricesOf]
  | cons o os ih =>
    intro m p
    rw [List.foldl_cons, ih, mem_keysOf_bumpAssoc]
    simp [pricesOf]
    tauto

theorem keysOf_append {κ α : Type} (m1 m2 : List (κ × α)) :
    keysOf (m1 ++ m2) = keysOf m1 ++ keysOf m2 := by
  simp [keysOf]

theorem accumulate_go_disjoint (l : List Order) :
    ∀ m : List (ℚ × Int), (pricesOf l).Nodup →
      (∀ o ∈ l, o.price ∉ keysOf m) →
      l.foldl (fun m o => bumpAssoc m o.price o.quantity) m
        = m ++ l.map (fun o => (o.price, o.quantity)) := by
  induction l with
  | nil => intro m _ _; simp
  | cons o os ih =>
    intro m hnd hdis
    rw [List.foldl_cons,
        bumpAssoc_not_mem m o.price o.quantity (hdis o (by simp))]
    rw [pricesOf] at hnd
    simp only [List.map_cons, List.nodup_cons] at hnd
    have hstep := ih (m ++ [(o.price, o.quantity)]) hnd.2 ?_
    · rw [hstep, List.append_assoc]
      rfl
    · intro o' ho'
      rw [keysOf_append]
      simp only [List.mem_append, not_or]
      refine ⟨hdis o' (List.mem_cons_of_mem o ho'), ?_⟩
      have : o'.price ≠ o.price := by
        intro he
        exact hnd.1 (he ▸ List.mem_map_of_mem (fun o => o.price) ho')
      simp [keysOf, this]

theorem sides_aggSide (l : List Order) (s : PricingSide) :
    ∀ o ∈ aggSide l s, o.side = s := by
  intro o ho
  simp only [aggSide, List.mem_map] at ho
  obtain ⟨pq, _, rfl⟩ := ho
  rfl

theorem aggSide_of_distinct (l : List Order) (s : PricingSide)
    (hnd : (pricesOf l).Nodup) (hs : ∀ o ∈ l, o.side = s) :
    aggSide l s = l := by
  have hacc : accumulateSide l = l.map (fun o => (o.price, o.quantity)) := by
    have := accumulate_go_disjoint l [] hnd (by simp [keysOf])
    simpa [accumulateSide] using this
  rw [aggSide, hacc, List.map_map]
  have : ∀ o ∈ l, ((fun pq : ℚ × Int => Order.mk pq.1 pq.2 s) ∘
      fun o : Order => (o.price, o.quantity)) o = id o := by
    intro o ho
    cases o with
    | mk p q sd =>
      have := hs _ ho
      simp at this
      simp [this]
  rw [List.map_congr_left this, List.map_id]

theorem nodup_prices_aggSide (l : List Order) (s : PricingSide) :
    (pricesOf (aggSide l s)).Nodup := by
  rw [pricesOf_aggSide]
  exact nodup_keys_accumulate_go l [] (by simp [keysOf])

theorem mem_prices_aggSide (l : List Order) (s : PricingSide) (p : ℚ) :
    p ∈ pricesOf (aggSide l s) ↔ p ∈ pricesOf l := by
  rw [pricesOf_aggSide, accumulateSide, mem_keys_accumulate_go]
  simp [keysOf]

/-- CLAIM C4 — For every OrderBook, `AggregateDepth` groups each side's
orders by exact price: one output level per distinct price per side (the
output price lists are duplicate-free and carry exactly the input's
prices), with the quantity at each price equal to the sum of that price's
input quantities; and `AggregateDepth` is idempotent — re-aggregating an
already-aggregated book changes nothing (so in particular every per-price
total is preserved). -/
theorem C4_aggregateDepth_grouping_idempotent (b : OrderBook) :
    (pricesOf (AggregateDepth b).bidStack).Nodup ∧
    (pricesOf (AggregateDepth b).offerStack).Nodup ∧
    (∀ p, qtyAt (AggregateDepth b).bidStack p = qtyAt b.bidStack p) ∧
    (∀ p, qtyAt (AggregateDepth b).offerStack p = qtyAt b.offerStack p) ∧
    (∀ p, p ∈ pricesOf (AggregateDepth b).bidStack ↔ p ∈ pricesOf b.bidStack) ∧
    (∀ p, p ∈ pricesOf (AggregateDepth b).offerStack ↔ p ∈ pricesOf b.offerStack) ∧
    AggregateDepth (AggregateDepth b) = AggregateDepth b := by
  refine ⟨nodup_prices_aggSide _ _, nodup_prices_aggSide _ _,
    fun p => qtyAt_aggSide _ _ p, fun p => qtyAt_aggSide _ _ p,
    fun p => mem_prices_aggSide _ _ p, fun p => mem_prices_aggSide _ _ p, ?_⟩
  unfold AggregateDepth
  simp only [OrderBook.mk.injEq, true_and]
  constructor
  · exact aggSide_of_distinct _ _ (nodup_prices_aggSide b.bidStack .BID)
      (sides_aggSide b.bidStack .BID)
  · exact aggSide_of_distinct _ _ (nodup_prices_aggSide b.offerStack .OFFER)
      (sides_aggSide b.offerStack .OFFER)

/-! ### Algo execution (execution.hpp, AlgoExecutionService.hpp) -/

/-- Order types for executions. -/
inductive OrderType
  | FOK
  | IOC
  | MARKET
  | LIMIT
  | STOP
  deriving DecidableEq

/-- An order that can be executed on an exchange; the product is
represented by its product id. -/
structure ExecutionOrder where
  productId : String
  side : PricingSide
  orderId : String
  orderType : OrderType
  price : ℚ
  visibleQuantity : Int
  hiddenQuantity : Int
  parentOrderId : String
  isChildOrder : Bool
  deriving DecidableEq

/-- State of an `AlgoExecutionService<T>`: the keyed store of latest
`AlgoExecution`s (each of which just wraps an `ExecutionOrder`), the
registered listeners, and the internal execution counter (a `long`
initialised to 0 and only ever incremented). -/
structure AlgoExecutionServiceState where
  algoExecutions : List (String × ExecutionOrder)
  listeners : List Nat
  executionCount : Nat
  deriving DecidableEq

namespace AlgoExecutionService

/-- `AlgoExecutionService<T>::AlgoExecutionTrade` (AlgoExecutionService.hpp
lines 155-214).  Returns the updated service state and the fan-out of
`ProcessAdd` events, or the error of the underlying best-price query.
Only trades when the spread is at most 1/128: chooses the bid side when
the pre-increment counter is odd and the offer side when it is even,
increments the counter, and builds an order with id
`"AlgoExec" + to_string(counter)` (the incremented counter), type MARKET,
hidden quantity 0, the fixed parent id, and no child flag. -/
def AlgoExecutionTrade (st : AlgoExecutionServiceState) (book : OrderBook) :
    Except BookAccessErr (AlgoExecutionServiceState × List (Nat × ExecutionOrder)) :=
  let prodId := book.productId
  match book.GetBidOffer with
  | .error e => .error e
  | .ok bo =>
    let bidPrice := bo.bidOrder.price
    let bidQty := bo.bidOrder.quantity
    let offerPrice := bo.offerOrder.price
    let offerQty := bo.offerOrder.quantity
    if offerPrice - bidPrice ≤ 1 / 128 then
      let chosen : ℚ × Int × PricingSide :=
        if st.executionCount % 2 = 1 then (bidPrice, bidQty, .BID)
        else (offerPrice, offerQty, .OFFER)
      let newCount := st.executionCount + 1
      let oid := "AlgoExec" ++ natToString newCount
      let e : ExecutionOrder :=
        ⟨prodId, chosen.2.2, oid, .MARKET, chosen.1, chosen.2.1, 0,
         "PARENT_ORDER_ID", false⟩
      .ok (⟨mapSet st.algoExecutions prodId e, st.listeners, newCount⟩,
           st.listeners.map (fun l => (l, e)))
    else
      .ok (st, [])

end AlgoExecutionService

/-- CLAIM C1 — For every OrderBook snapshot whose best-offer price minus
best-bid price is at most 1/128, `AlgoExecutionTrade` emits exactly one
ExecutionOrder to every listener and advances the execution counter by
exactly one; when the spread exceeds 1/128 nothing is emitted and the
counter (indeed the whole state) is unchanged.  When emitted, the chosen
side is the best bid (its price and quantity) if the counter's
pre-increment value is odd and the best offer if it is even, and the order
carries id "AlgoExec<counter>" rendered from the incremented counter,
orderType MARKET, hiddenQty 0, and isChildOrder false. -/
theorem C1_algoExecutionTrade_spec (st : AlgoExecutionServiceState)
    (book : OrderBook) (bo : BidOffer) (hbo : book.GetBidOffer = .ok bo) :
    (bo.offerOrder.price - bo.bidOrder.price ≤ 1 / 128 →
      ∃ e : ExecutionOrder,
        AlgoExecutionService.AlgoExecutionTrade st book =
          .ok (⟨mapSet st.algoExecutions book.productId e, st.listeners,
                st.executionCount + 1⟩,
               st.listeners.map (fun l => (l, e))) ∧
        e.productId = book.productId ∧
        e.orderId = "AlgoExec" ++ natToString (st.executionCount + 1) ∧
        e.orderType = .MARKET ∧
        e.hiddenQuantity = 0 ∧
        e.parentOrderId = "PARENT_ORDER_ID" ∧
        e.isChildOrder = false ∧
        (st.executionCount % 2 = 1 →
          e.side = .BID ∧ e.price = bo.bidOrder.price ∧
          e.visibleQuantity = bo.bidOrder.quantity) ∧
        (st.executionCount % 2 = 0 →
          e.side = .OFFER ∧ e.price = bo.offerOrder.price ∧
          e.visibleQuantity = bo.offerOrder.quantity)) ∧
    (1 / 128 < bo.offerOrder.price - bo.bidOrder.price →
      AlgoExecutionService.AlgoExecutionTrade st book = .ok (st, [])) := by
  constructor
  · intro hspread
    by_cases hpar : st.executionCount % 2 = 1
    · refine ⟨⟨book.productId, .BID,
        "AlgoExec" ++ natToString (st.executionCount + 1), .MARKET,
        bo.bidOrder.price, bo.bidOrder.quantity, 0, "PARENT_ORDER_ID", false⟩,
        ?_, rfl, rfl, rfl, rfl, rfl, rfl, fun _ => ⟨rfl, rfl, rfl⟩,
        fun h0 => by omega⟩
      unfold AlgoExecutionService.AlgoExecutionTrade
      rw [hbo]
      simp only [if_pos hspread, if_pos hpar]
    · have hpar0 : st.executionCount % 2 = 0 := by omega
      refine ⟨⟨book.productId, .OFFER,
        "AlgoExec" ++ natToString (st.executionCount + 1), .MARKET,
        bo.offerOrder.price, bo.offerOrder.quantity, 0, "PARENT_ORDER_ID", false⟩,
        ?_, rfl, rfl, rfl, rfl, rfl, rfl, fun h1 => by omega,
        fun _ => ⟨rfl, rfl, rfl⟩⟩
      unfold AlgoExecutionService.AlgoExecutionTrade
      rw [hbo]
      simp only [if_pos hspread, if_neg hpar]
  · intro hspread
    unfold AlgoExecutionService.AlgoExecutionTrade
    rw [hbo]
    simp only [if_neg (not_le.mpr hspread)]

/-- Concrete inputs exercising C1: a one-level book whose spread is
exactly 1/128 (offer 100 + 1/128 would need rational literals; instead the
bid is 100 and the offer 100, spread 0 ≤ 1/128), and a fresh service state
with one listener and counter 0. -/
def bookC1 : OrderBook :=
  ⟨"912828V23", [⟨100, 1000000, .BID⟩], [⟨100, 2000000, .OFFER⟩]⟩

/-- Fresh algo-execution service state with a single listener. -/
def stC1 : AlgoExecutionServiceState := ⟨[], [0], 0⟩

/-- Witness for C1 at a concrete snapshot and state. -/
theorem C1_algoExecutionTrade_spec_witness :
    bookC1.GetBidOffer = .ok ⟨⟨100, 1000000, .BID⟩, ⟨100, 2000000, .OFFER⟩⟩ ∧
    ((⟨⟨100, 1000000, .BID⟩, ⟨100, 2000000, .OFFER⟩⟩ : BidOffer).offerOrder.price -
        (⟨⟨100, 1000000, .BID⟩, ⟨100, 2000000, .OFFER⟩⟩ : BidOffer).bidOrder.price ≤ 1 / 128 →
      ∃ e : ExecutionOrder,
        AlgoExecutionService.AlgoExecutionTrade stC1 bookC1 =
          .ok (⟨mapSet stC1.algoExecutions bookC1.productId e, stC1.listeners,
                stC1.executionCount + 1⟩,
               stC1.listeners.map (fun l => (l, e))) ∧
        e.productId = bookC1.productId ∧
        e.orderId = "AlgoExec" ++ natToString (stC1.executionCount + 1) ∧
        e.orderType = .MARKET ∧
        e.hiddenQuantity = 0 ∧
        e.parentOrderId = "PARENT_ORDER_ID" ∧
        e.isChildOrder = false ∧
        (stC1.executionCount % 2 = 1 →
          e.side = .BID ∧ e.price = (100 : ℚ) ∧ e.visibleQuantity = 1000000) ∧
        (stC1.executionCount % 2 = 0 →
          e.side = .OFFER ∧ e.price = (100 : ℚ) ∧ e.visibleQuantity = 2000000)) :=
  ⟨rfl, ((C1_algoExecutionTrade_spec stC1 bookC1
      ⟨⟨100, 1000000, .BID⟩, ⟨100, 2000000, .OFFER⟩⟩ rfl).1)⟩

/-! ### Trade booking (tradebookingservice.hpp) -/

/-- Trade sides for a transaction. -/
inductive Side
  | BUY
  | SELL
  deriving DecidableEq

/-- A trade with price, side, quantity, and book information; the product
is represented by its product id. -/
structure Trade where
  productId : String
  tradeId : String
  price : ℚ
  book : String
  quantity : Int
  side : Side
  deriving DecidableEq

/-- State of a `TradeBookingService<T>`: trades keyed by trade id plus the
registered listeners. -/
structure TradeBookingState where
  trades : List (String × Trade)
  listeners : List Nat
  deriving DecidableEq

namespace TradeBookingService

/-- `TradeBookingService<T>::OnMessage` (part_002 lines 184-195): store the
trade under its trade id and notify every listener, in order. -/
def OnMessage (st : TradeBookingState) (t : Trade) :
    TradeBookingState × List (Nat × Trade) :=
  (⟨mapSet st.trades t.tradeId t, st.listeners⟩,
   st.listeners.map (fun l => (l, t)))

/-- `TradeBookingService<T>::BookTrade` (part_002 lines 221-229): notify
every listener about the trade; no store update. -/
def BookTrade (st : TradeBookingState) (t : Trade) : List (Nat × Trade) :=
  st.listeners.map (fun l => (l, t))

end TradeBookingService

/-- The static book-name table of
`TradeBookingServiceListener<T>::ProcessAdd`. -/
def marketBooks : List String := ["TRSY1", "TRSY2", "TRSY3"]

namespace TradeBookingServiceListener

/-- `TradeBookingServiceListener<T>::ProcessAdd` (part_002 lines 343-373):
increment the booked-trade counter, convert the execution order into a
trade (BID prices sell, OFFER prices buy; quantity = visible + hidden;
book = `marketBooks[bookedCount % 3]` with the incremented counter), then
hand the trade to the booking service via `OnMessage` and `BookTrade`. -/
def ProcessAdd (bookedCount : Nat) (st : TradeBookingState)
    (execOrder : ExecutionOrder) : Nat × TradeBookingState × List (Nat × Trade) :=
  let newCount := bookedCount + 1
  let tradeSide : Side := if execOrder.side = .BID then .SELL else .BUY
  let chosenBook := marketBooks.getD (newCount % 3) ""
  let totalQty := execOrder.visibleQuantity + execOrder.hiddenQuantity
  let generatedTrade : Trade :=
    ⟨execOrder.productId, execOrder.orderId, execOrder.price, chosenBook,
     totalQty, tradeSide⟩
  let r1 := TradeBookingService.OnMessage st generatedTrade
  let ev2 := TradeBookingService.BookTrade r1.1 generatedTrade
  (newCount, r1.1, r1.2 ++ ev2)

end TradeBookingServiceListener

/-- CLAIM C10 — For every ExecutionOrder processed by
`TradeBookingServiceListener::ProcessAdd`, the booked trade has side SELL
when the order's pricing side is BID and BUY when it is OFFER, quantity
equal to the order's visible plus hidden quantity, and a book chosen
round-robin from {TRSY1, TRSY2, TRSY3} by the internal booked-trade
counter; the trade is delivered to the booking service's listeners twice,
once via `OnMessage` (which also stores it) and once via `BookTrade`. -/
theorem C10_processAdd_booking (bookedCount : Nat) (st : TradeBookingState)
    (eo : ExecutionOrder) :
    ∃ t : Trade,
      TradeBookingServiceListener.ProcessAdd bookedCount st eo =
        (bookedCount + 1,
         ⟨mapSet st.trades eo.orderId t, st.listeners⟩,
         st.listeners.map (fun l => (l, t)) ++ st.listeners.map (fun l => (l, t))) ∧
      t.side = (if eo.side = .BID then .SELL else .BUY) ∧
      t.quantity = eo.visibleQuantity + eo.hiddenQuantity ∧
      t.book = marketBooks.getD ((bookedCount + 1) % 3) "" ∧
      t.book ∈ marketBooks ∧
      t.productId = eo.productId ∧
      t.tradeId = eo.orderId ∧
      t.price = eo.price := by
  refine ⟨⟨eo.productId, eo.orderId, eo.price,
    marketBooks.getD ((bookedCount + 1) % 3) "",
    eo.visibleQuantity + eo.hiddenQuantity,
    if eo.side = .BID then .SELL else .BUY⟩,
    rfl, rfl, rfl, rfl, ?_, rfl, rfl, rfl⟩
  have h3 : (bookedCount + 1) % 3 < 3 := Nat.mod_lt _ (by omega)
  interval_cases h : (bookedCount + 1) % 3 <;> simp [marketBooks]

/-! ### Positions (positionservice.hpp) -/

/-- Holdings of one product across books; the product is represented by
its product id.  `bookPositions` maps book name to signed quantity. -/
structure Position where
  productId : String
  bookPositions : List (String × Int)
  deriving DecidableEq

namespace Position

/-- `Position<T>::AddPosition`: `bookPositions[book] += qty` (an absent
book starts from the value-initialised 0). -/
def AddPosition (pos : Position) (book : String) (qty : Int) : Position :=
  ⟨pos.productId, bumpAssoc pos.bookPositions book qty⟩

/-- `Position<T>::GetAggregatePosition`: sum of all per-book quantities. -/
def GetAggregatePosition (pos : Position) : Int := sumVals pos.bookPositions

/-- `Position<T>::GetPosition`: `bookPositions[book]` (0 when absent). -/
def GetPosition (pos : Position) (book : String) : Int :=
  valueAt pos.bookPositions book

end Position

/-- State of a `PositionService<T>`: positions keyed by product id plus
the registered listeners. -/
structure PositionServiceState where
  positions : List (String × Position)
  listeners : List Nat
  deriving DecidableEq

namespace PositionService

/-- `PositionService<T>::AddTrade` (part_003 lines 193-226): build a fresh
position holding the signed trade quantity (+qty for BUY, −qty for SELL)
in the trade's book, additively merge every book entry of the previously
stored position for that product (an absent product reads as a
default-constructed `Position` with an empty book map), store the merged
position, and notify every listener with it. -/
def AddTrade (st : PositionServiceState) (t : Trade) :
    PositionServiceState × List (Nat × Position) :=
  let prodId := t.productId
  let newPosition0 : Position := ⟨prodId, []⟩
  let newPosition1 :=
    if t.side = .BUY then newPosition0.AddPosition t.book t.quantity
    else newPosition0.AddPosition t.book (-t.quantity)
  let oldPosition := mapGetD st.positions prodId ⟨"", []⟩
  let merged := oldPosition.bookPositions.foldl
    (fun np kv => np.AddPosition kv.1 kv.2) newPosition1
  (⟨mapSet st.positions prodId merged, st.listeners⟩,
   st.listeners.map (fun l => (l, merged)))

/-- Application of a whole trade sequence through `AddTrade`. -/
def applyTrades (st : PositionServiceState) (ts : List Trade) :
    PositionServiceState :=
  ts.foldl (fun s t => (AddTrade s t).1) st

/-- The aggregate position the service reports for a product id (an
absent product reads as a default-constructed empty `Position`). -/
def GetAggregatePositionOf (st : PositionServiceState) (pid : String) : Int :=
  (mapGetD st.positions pid ⟨"", []⟩).GetAggregatePosition

/-- The per-book position the service reports for a product id. -/
def GetPositionOf (st : PositionServiceState) (pid book : String) : Int :=
  (mapGetD st.positions pid ⟨"", []⟩).GetPosition book

end PositionService

/-- Signed quantity of a trade: positive for BUY, negative for SELL. -/
def signedQty (t : Trade) : Int :=
  if t.side = .BUY then t.quantity else -t.quantity

theorem sumVals_merge_go (l : List (String × Int)) :
    ∀ start : Position,
      Position.GetAggregatePosition
          (l.foldl (fun np kv => np.AddPosition kv.1 kv.2) start)
        = start.GetAggregatePosition + sumVals l := by
  induction l with
  | nil => intro start; simp [sumVals]
  | cons kv rest ih =>
    intro start
    rw [List.foldl_cons, ih, sumVals_cons]
    unfold Position.GetAggregatePosition Position.AddPosition
    rw [sumVals_bumpAssoc]
    ring

theorem valueAt_merge_go (l : List (String × Int)) :
    ∀ (start : Position) (book : String),
      Position.GetPosition
          (l.foldl (fun np kv => np.AddPosition kv.1 kv.2) start) book
        = start.GetPosition book + valueAt l book := by
  induction l with
  | nil => intro start book; simp [valueAt_nil]
  | cons kv rest ih =>
    intro start book
    rw [List.foldl_cons, ih, valueAt_cons]
    unfold Position.GetPosition Position.AddPosition
    rw [valueAt_bumpAssoc]
    by_cases h : kv.1 = book <;> simp [h] <;> ring

theorem addTrade_aggregate (st : PositionServiceState) (t : Trade) (pid : String) :
    PositionService.GetAggregatePositionOf (PositionService.AddTrade st t).1 pid
      = PositionService.GetAggregatePositionOf st pid
        + (if t.productId = pid then signedQty t else 0) := by
  unfold PositionService.AddTrade PositionService.GetAggregatePositionOf
  simp only
  rw [mapGetD_mapSet]
  by_cases hp : t.productId = pid
  · rw [if_pos hp, if_pos hp, sumVals_merge_go]
    subst hp
    by_cases hside : t.side = .BUY
    · simp only [if_pos hside]
      unfold Position.GetAggregatePosition Position.AddPosition signedQty
      rw [sumVals_bumpAssoc]
      simp [sumVals, hside]
      ring
    · simp only [if_neg hside]
      unfold Position.GetAggregatePosition Position.AddPosition signedQty
      rw [sumVals_bumpAssoc]
      simp [sumVals, hside]
      ring
  · rw [if_neg hp, if_neg hp]
    ring

theorem applyTrades_aggregate (ts : List Trade) :
    ∀ (st : PositionServiceState) (pid : String),
      PositionService.GetAggregatePositionOf (PositionService.applyTrades st ts) pid
        = PositionService.GetAggregatePositionOf st pid
          + ((ts.filter (fun t => t.productId = pid)).map signedQty).sum := by
  induction ts with
  | nil => intro st pid; simp [PositionService.applyTrades]
  | cons t rest ih =>
    intro st pid
    unfold PositionService.applyTrades
    rw [List.foldl_cons]
    have := ih (PositionService.AddTrade st t).1 pid
    unfold PositionService.applyTrades at this
    rw [this, addTrade_aggregate]
    by_cases hp : t.productId = pid <;> simp [List.filter_cons, hp] <;> ring

/-- The three trades of the concrete example in the specification:
+1,000,000 BUY in book TRSY1, −400,000 SELL in book TRSY1, +200,000 BUY in
book TRSY2, all on one product. -/
def tradesC6 : List Trade :=
  [⟨"912828V23", "T1", 100, "TRSY1", 1000000, .BUY⟩,
   ⟨"912828V23", "T2", 100, "TRSY1", 400000, .SELL⟩,
   ⟨"912828V23", "T3", 100, "TRSY2", 200000, .BUY⟩]

/-- CLAIM C6 — For every sequence of trades applied through
`PositionService::AddTrade` starting from a fresh service, the per-product
aggregate position equals the sum of every signed trade quantity (positive
for BUY, negative for SELL) ever applied to that product across all books;
in particular the example trades [+1,000,000 BUY TRSY1; −400,000 SELL
TRSY1; +200,000 BUY TRSY2] on one product yield aggregate 800,000 with
per-book state {TRSY1: 600,000, TRSY2: 200,000}. -/
theorem C6_position_invariant :
    (∀ (L : List Nat) (ts : List Trade) (pid : String),
      PositionService.GetAggregatePositionOf
          (PositionService.applyTrades ⟨[], L⟩ ts) pid
        = ((ts.filter (fun t => t.productId = pid)).map signedQty).sum) ∧
    (PositionService.GetAggregatePositionOf
        (PositionService.applyTrades ⟨[], []⟩ tradesC6) "912828V23" = 800000 ∧
     PositionService.GetPositionOf
        (PositionService.applyTrades ⟨[], []⟩ tradesC6) "912828V23" "TRSY1"
        = 600000 ∧
     PositionService.GetPositionOf
        (PositionService.applyTrades ⟨[], []⟩ tradesC6) "912828V23" "TRSY2"
        = 200000) := by
  constructor
  · intro L ts pid
    rw [applyTrades_aggregate]
    simp [PositionService.GetAggregatePositionOf, mapGetD, mapFind,
      Position.GetAggregatePosition, sumVals]
  · refine ⟨?_, ?_, ?_⟩ <;> rfl

/-! ### Risk (riskservice.hpp) -/

/-- PV01 risk record for one product: PV01 per unit and the quantity the
risk value is associated with. -/
structure PV01 where
  productId : String
  pv01 : ℚ
  quantity : Int
  deriving DecidableEq

/-- The static PV01-per-product configuration table `bondPV01` (the
decimal literals of the source, as exact rationals). -/
def bondPV01 : List (String × ℚ) :=
  [("912828V23", 19/1000), ("912828W22", 28/1000), ("912828X21", 46/1000),
   ("912828Y20", 64/1000), ("912828Z19", 91/1000), ("912810FZ8", 142/1000),
   ("912810GZ6", 183/1000)]

/-- A bucket sector: a group of products (by product id) and a name. -/
structure BucketedSector where
  products : List String
  name : String
  deriving DecidableEq

/-- The PV01 record returned for a bucketed sector. -/
structure SectorPV01 where
  sector : BucketedSector
  pv01 : ℚ
  quantity : Int
  deriving DecidableEq

/-- State of a `RiskService<T>`: PV01 records keyed by product id plus the
registered listeners. -/
structure RiskServiceState where
  pv01s : List (String × PV01)
  listeners : List Nat
  deriving DecidableEq

namespace RiskService

/-- `RiskService<T>::AddPosition` (part_001 lines 187-198): look the
product up in `bondPV01` via `map::at` — an absent key throws
`std::out_of_range` (the specification's ConfigurationMissing condition),
modelled as `.error ()` before any state mutation.  Otherwise build a PV01
from the position's aggregate quantity, store it, and notify every
listener. -/
def AddPosition (st : RiskServiceState) (pos : Position) :
    Except Unit (RiskServiceState × List (Nat × PV01)) :=
  let pid := pos.productId
  match mapFind bondPV01 pid with
  | none => .error ()
  | some pv01Value =>
    let quantity := pos.GetAggregatePosition
    let pv : PV01 := ⟨pid, pv01Value, quantity⟩
    .ok (⟨mapSet st.pv01s pid pv, st.listeners⟩,
         st.listeners.map (fun l => (l, pv)))

/-- A batch of positions fed through `AddPosition` one by one, as the
listener fan-out of the position service does.  No caller in the code
catches the exception, so a throwing `AddPosition` aborts the rest of the
batch; the returned flag records whether the batch was aborted. -/
def processPositions (st : RiskServiceState) :
    List Position → RiskServiceState × Bool
  | [] => (st, false)
  | p :: ps =>
    match AddPosition st p with
    | .ok (st1, _) => processPositions st1 ps
    | .error _ => (st, true)

/-- `RiskService<T>::GetBucketedRisk` (part_001 lines 200-217): sum
`pv01 * quantity` of the stored record of every product in the sector
(`pv01s[pid]` value-initializes an absent product to pv01 0, quantity 0),
and return it with the structural placeholder quantity 1. -/
def GetBucketedRisk (st : RiskServiceState) (sector : BucketedSector) :
    SectorPV01 :=
  let total := sector.products.foldl
    (fun acc pid =>
      let entry := mapGetD st.pv01s pid ⟨"", 0, 0⟩
      acc + entry.pv01 * entry.quantity) 0
  ⟨sector, total, 1⟩

end RiskService

/-- A position on a product id that is absent from the PV01 table. -/
def posUnknownC8 : Position := ⟨"UNKNOWN00", [("TRSY1", 100)]⟩

/-- A position on a product id that the PV01 table maps. -/
def posKnownC8 : Position := ⟨"912828V23", [("TRSY1", 50)]⟩

/-- CLAIM C8 (counterexample) — An unmapped product does not abort only
that product's risk update: `bondPV01.at` throws, nothing catches the
exception, and the rest of the batch is never processed — after the batch
[unknown, known] the mapped product has no stored PV01 entry. -/
theorem C8_addPosition_missing_counterexample :
    RiskService.processPositions ⟨[], [0]⟩ [posUnknownC8, posKnownC8]
        = (⟨[], [0]⟩, true) ∧
    mapFind (RiskService.processPositions ⟨[], [0]⟩
        [posUnknownC8, posKnownC8]).1.pv01s "912828V23" = none ∧
    (RiskService.processPositions ⟨[], [0]⟩ [posKnownC8]).2 = false ∧
    mapFind (RiskService.processPositions ⟨[], [0]⟩
        [posKnownC8]).1.pv01s "912828V23" = some ⟨"912828V23", 19/1000, 50⟩ :=
  ⟨rfl, rfl, rfl, rfl⟩

/-- CLAIM C8 (amended) — For every position whose product id is absent
from the PV01 configuration table, `RiskService::AddPosition` fails (the
`map::at` lookup throws before any state mutation, so the stored PV01
entries of every other product are unaffected), but the exception is
uncaught, so the batch containing the position is aborted: positions after
the failing one are not processed. -/
theorem C8_addPosition_missing_amended (st : RiskServiceState) (pos : Position)
    (h : mapFind bondPV01 pos.productId = none) :
    RiskService.AddPosition st pos = .error () ∧
    ∀ ps : List Position,
      RiskService.processPositions st (pos :: ps) = (st, true) := by
  have herr : RiskService.AddPosition st pos = .error () := by
    simp only [RiskService.AddPosition, h]
  refine ⟨herr, fun ps => ?_⟩
  unfold RiskService.processPositions
  rw [herr]

/-- Witness for the amended C8 at a concrete state and position. -/
theorem C8_addPosition_missing_amended_witness :
    mapFind bondPV01 posUnknownC8.productId = none ∧
    (RiskService.AddPosition ⟨[], [0]⟩ posUnknownC8 = .error () ∧
     ∀ ps : List Position,
       RiskService.processPositions ⟨[], [0]⟩ (posUnknownC8 :: ps)
         = (⟨[], [0]⟩, true)) :=
  ⟨rfl, C8_addPosition_missing_amended ⟨[], [0]⟩ posUnknownC8 rfl⟩

theorem foldl_add_map {α : Type} (f : α → ℚ) (l : List α) :
    ∀ a : ℚ, l.foldl (fun acc x => acc + f x) a = a + (l.map f).sum := by
  induction l with
  | nil => intro a; simp
  | cons x xs ih =>
    intro a
    rw [List.foldl_cons, ih]
    simp
    ring

/-- The state of the concrete C9 example: PV01 records of 0.019 with
quantity 1,000,000 and 0.028 with quantity 2,000,000. -/
def stC9 : RiskServiceState :=
  ⟨[("912828V23", ⟨"912828V23", 19/1000, 1000000⟩),
    ("912828W22", ⟨"912828W22", 28/1000, 2000000⟩)], []⟩

/-- The two-product sector of the concrete C9 example. -/
def sectorC9 : BucketedSector := ⟨["912828V23", "912828W22"], "FrontEnd"⟩

/-- CLAIM C9 — For every bucketed sector, `GetBucketedRisk` returns a
record whose pv01 field is the sum over the sector's products of
(last-known PV01-per-unit × last-known aggregate quantity) and whose
quantity field is the placeholder 1; in particular two products with
PV01-per-unit 0.019 and 0.028 and quantities 1,000,000 and 2,000,000 give
75,000. -/
theorem C9_getBucketedRisk_sum :
    (∀ (st : RiskServiceState) (sector : BucketedSector),
      (RiskService.GetBucketedRisk st sector).pv01
          = (sector.products.map (fun pid =>
              (mapGetD st.pv01s pid ⟨"", 0, 0⟩).pv01 *
              (mapGetD st.pv01s pid ⟨"", 0, 0⟩).quantity)).sum ∧
      (RiskService.GetBucketedRisk st sector).quantity = 1 ∧
      (RiskService.GetBucketedRisk st sector).sector = sector) ∧
    ((RiskService.GetBucketedRisk stC9 sectorC9).pv01 = 75000 ∧
     (RiskService.GetBucketedRisk stC9 sectorC9).quantity = 1) := by
  constructor
  · intro st sector
    refine ⟨?_, rfl, rfl⟩
    unfold RiskService.GetBucketedRisk
    rw [foldl_add_map (fun pid =>
      (mapGetD st.pv01s pid ⟨"", 0, 0⟩).pv01 *
      (mapGetD st.pv01s pid ⟨"", 0, 0⟩).quantity)]
    simp
  · constructor
    · show (0 : ℚ) + (19/1000) * ((1000000 : Int) : ℚ)
          + (28/1000) * ((2000000 : Int) : ℚ) = 75000
      norm_num
    · rfl

/-! ### Inquiries (inquiryservice.hpp) -/

/-- States of an inquiry lifecycle. -/
inductive InquiryState
  | RECEIVED
  | QUOTED
  | DONE
  | REJECTED
  | CUSTOMER_REJECTED
  deriving DecidableEq

/-- A customer inquiry; the product is represented by its product id. -/
structure Inquiry where
  inquiryId : String
  productId : String
  side : Side
  quantity : Int
  price : ℚ
  state : InquiryState
  deriving DecidableEq

namespace InquiryService

/-- `InquiryService<T>::OnMessage` (part_000 lines 231-256) together with
`InquiryConnector<T>::Publish` (lines 333-343) and the single-inquiry
`Subscribe` overload (lines 395-400), which re-enters `OnMessage`.

The inquiry object is passed by reference through the whole chain, so the
mutations of the nested call are visible to the outer one; the model
threads the inquiry value explicitly.  The nested call always receives a
QUOTED inquiry, so the real recursion depth is at most 2; the fuel
parameter carries exactly that bound (`OnMessage` below instantiates it),
and the fuel-0 branch is unreachable.

Arguments: the registered listeners, the remaining fuel, the keyed inquiry
store, and the incoming inquiry.  Result: the updated store, the final
value of the by-reference inquiry object, and the `ProcessAdd` fan-out
events in emission order. -/
def OnMessageFuel (L : List Nat) :
    Nat → List (String × Inquiry) → Inquiry →
    List (String × Inquiry) × Inquiry × List (Nat × Inquiry)
  | 0, m, inq => (m, inq, [])
  | fuel + 1, m, inq =>
    let currentState := inq.state
    let step1 :=
      if currentState = .RECEIVED then
        let m1 := mapSet m inq.inquiryId inq
        -- InquiryConnector<T>::Publish on the same reference:
        if inq.state = .RECEIVED then
          OnMessageFuel L fuel m1 { inq with state := .QUOTED }
        else (m1, inq, [])
      else (m, inq, [])
    if currentState = .QUOTED then
      let inqD : Inquiry := { step1.2.1 with state := .DONE }
      (mapSet step1.1 inqD.inquiryId inqD, inqD,
       step1.2.2 ++ L.map (fun l => (l, inqD)))
    else step1

/-- `InquiryService<T>::OnMessage` with the sufficient fuel bound. -/
def OnMessage (L : List Nat) (m : List (String × Inquiry)) (inq : Inquiry) :
    List (String × Inquiry) × Inquiry × List (Nat × Inquiry) :=
  OnMessageFuel L 2 m inq

end InquiryService

/-- A concrete inquiry arriving in state RECEIVED. -/
def inqC7 : Inquiry := ⟨"INQ1", "912828V23", .BUY, 1000000, 100, .RECEIVED⟩

/-- CLAIM C7 (counterexample) — Ingesting a RECEIVED inquiry through
`OnMessage` does not leave it QUOTED with no listener notification: the
service immediately re-submits the quoted inquiry through the same
ingestion path inside the same call, so the call ends with the inquiry
DONE and the listeners notified. -/
theorem C7_onMessage_received_counterexample :
    (InquiryService.OnMessage [0] [] inqC7).2.1.state = .DONE ∧
    (InquiryService.OnMessage [0] [] inqC7).2.1.state ≠ .QUOTED ∧
    (InquiryService.OnMessage [0] [] inqC7).2.2
      = [(0, ⟨"INQ1", "912828V23", .BUY, 1000000, 100, .DONE⟩)] := by
  refine ⟨rfl, ?_, rfl⟩
  intro h
  rw [show (InquiryService.OnMessage [0] [] inqC7).2.1.state = .DONE from rfl] at h
  cases h

/-- CLAIM C7 (amended) — Ingesting a QUOTED inquiry through `OnMessage`
transitions it to DONE, stores it, and notifies every registered listener
exactly once.  Ingesting a RECEIVED inquiry stores it, transitions it to
QUOTED, and immediately re-submits it through the same ingestion path
within the same call (the QUOTED step itself notifies nobody), so the
whole ingestion ends with the inquiry DONE, both writes applied, and every
registered listener notified exactly once. -/
theorem C7_onMessage_transitions (L : List Nat)
    (m : List (String × Inquiry)) (inq : Inquiry) :
    (inq.state = .QUOTED →
      InquiryService.OnMessage L m inq =
        (mapSet m inq.inquiryId { inq with state := .DONE },
         { inq with state := .DONE },
         L.map (fun l => (l, { inq with state := .DONE })))) ∧
    (inq.state = .RECEIVED →
      InquiryService.OnMessage L m inq =
        (mapSet (mapSet m inq.inquiryId inq) inq.inquiryId
           { inq with state := .DONE },
         { inq with state := .DONE },
         L.map (fun l => (l, { inq with state := .DONE })))) := by
  constructor
  · intro hq
    simp [InquiryService.OnMessage, InquiryService.OnMessageFuel, hq]
  · intro hr
    simp [InquiryService.OnMessage, InquiryService.OnMessageFuel, hr]

/-- Witness for the amended C7 at a concrete RECEIVED inquiry. -/
theorem C7_onMessage_transitions_witness :
    inqC7.state = .RECEIVED ∧
    InquiryService.OnMessage [0] [] inqC7 =
      (mapSet (mapSet [] inqC7.inquiryId inqC7) inqC7.inquiryId
         { inqC7 with state := .DONE },
       { inqC7 with state := .DONE },
       [0].map (fun l => (l, { inqC7 with state := .DONE }))) :=
  ⟨rfl, (C7_onMessage_transitions [0] [] inqC7).2 rfl⟩

/-! ### Fractional price notation (utility.hpp) -/

/-- Truncation of a rational toward zero, the behaviour of
`static_cast<int>(double)`. -/
def ratTrunc (q : ℚ) : Int := q.num.tdiv (q.den : Int)

/-- `string2price` (utility.hpp lines 71-87) on the character list of the
input string: split at the first `'-'` (`find('-')`; absence throws),
parse the integer part (`stod`) and the two 32nds digits
(`stoi(substr(dashPos+1, 2))`), read the character at `dashPos + 3`
(out of bounds is modelled as `none`), decode `'+'` as 4 and any other
character via its distance from `'0'`, validate `xy ≤ 31` and `0 ≤ z ≤ 7`
(the `xy < 0` half of the source's check cannot fire on a parsed digit
string), and combine `base + xy/32 + z/256`.

The combination is exact `ℚ` arithmetic, which coincides with the code's
`stod`-plus-`double`-addition semantics only while every partial sum is
exactly representable: all values here are multiples of 1/256, so this
holds whenever `base < 2^45` (the value in 1/256 units stays below the
2^53 mantissa bound).  Theorems that quantify over the base therefore
restrict it to the even smaller `int` range (see `price2string`); outside
that range this model diverges from the program (for base = 2^52 the
double sum already collapses `z = 1` into the base). -/
def string2price (s : List Char) : Option ℚ :=
  let pre := s.takeWhile (fun c => c ≠ '-')
  let rest := s.dropWhile (fun c => c ≠ '-')
  match rest with
  | [] => none
  | _ :: after =>
    match parseNat pre, parseNat (after.take 2), after[2]? with
    | some basePrice, some xy, some zChar =>
      let z : Int := if zChar = '+' then 4 else (zChar.toNat : Int) - ('0'.toNat : Int)
      if xy ≤ 31 ∧ 0 ≤ z ∧ z ≤ 7 then
        some ((basePrice : ℚ) + (xy : ℚ) / 32 + (z : ℚ) / 256)
      else none
    | _, _, _ => none

/-- `price2string` (utility.hpp lines 95-103): truncate to the integer
part, extract the 32nds (`int(fractionalPart * 32)`) and the 256ths modulo
8 (`int(fractionalPart * 256) % 8`, C++ `%` truncates, i.e. `Int.tmod`),
render 4 as `'+'`, and pad the 32nds to two digits.

`ratTrunc` models `static_cast<int>(decimal)` faithfully only inside the
32-bit `int` range: for `decimal ≥ 2^31` the C++ cast is undefined
behaviour.  Theorems about the round-trip therefore restrict the integer
part to `base < 2^31`; on that domain the remaining `double` arithmetic
(`decimal - basePrice`, `* 32`, `* 256`) is exact, since every
intermediate value is a multiple of 1/256 below 2^39 in 1/256 units. -/
def price2string (decimal : ℚ) : List Char :=
  let basePrice : Int := ratTrunc decimal
  let fractionalPart : ℚ := decimal - (basePrice : ℚ)
  let xy : Int := ratTrunc (fractionalPart * 32)
  let z : Int := (ratTrunc (fractionalPart * 256)).tmod 8
  let zChar : Char := if z = 4 then '+' else digitChar' z.toNat
  intToChars basePrice ++ '-' ::
    ((if xy < 10 then ['0'] else []) ++ intToChars xy ++ [zChar])

/-- The two-digit rendering of the 32nds field of a valid price string. -/
def twoDigit (xy : Nat) : List Char :=
  (if xy < 10 then ['0'] else []) ++ toDigits xy

/-- The valid fractional price string `B-XYz` built from its three
components. -/
def validString (B xy : Nat) (zc : Char) : List Char :=
  toDigits B ++ '-' :: (twoDigit xy ++ [zc])

theorem ratTrunc_nonneg_eq_floor (q : ℚ) (h : 0 ≤ q) : ratTrunc q = ⌊q⌋ := by
  rw [Rat.floor_def]
  exact Int.tdiv_eq_ediv (Rat.num_nonneg.mpr h) (by positivity)

theorem ratTrunc_natCast_add (B : Nat) (fr : ℚ) (h0 : 0 ≤ fr) (h1 : fr < 1) :
    ratTrunc ((B : ℚ) + fr) = (B : Int) := by
  have hnn : (0 : ℚ) ≤ (B : ℚ) + fr := add_nonneg (by positivity) h0
  rw [ratTrunc_nonneg_eq_floor _ hnn]
  have hcast : ((B : ℚ)) = (((B : Int) : ℤ) : ℚ) := by push_cast; ring
  rw [hcast, Int.floor_int_add]
  rw [Int.floor_eq_zero_iff.mpr ⟨h0, h1⟩]
  simp

theorem ratTrunc_natCast (m : Nat) : ratTrunc ((m : ℚ)) = (m : Int) := by
  have := ratTrunc_natCast_add m 0 (le_refl 0) (by norm_num)
  simpa using this

theorem intToChars_natCast (n : Nat) : intToChars ((n : Int)) = toDigits n := by
  unfold intToChars
  rw [if_neg (by omega)]
  simp

theorem takeWhile_digits (l r : List Char)
    (hl : ∀ c ∈ l, (charToDigit c).isSome) :
    (l ++ '-' :: r).takeWhile (fun c => c ≠ '-') = l ∧
    (l ++ '-' :: r).dropWhile (fun c => c ≠ '-') = '-' :: r := by
  induction l with
  | nil => simp
  | cons c cs ih =>
    have hc : (charToDigit c).isSome := hl c (by simp)
    have hcd : c ≠ '-' := by
      cases hcc : charToDigit c with
      | none => rw [hcc] at hc; cases hc
      | some d => exact charToDigit_ne_dash c d hcc
    obtain ⟨h1, h2⟩ := ih (fun c' hc' => hl c' (by simp [hc']))
    constructor
    · rw [List.cons_append, List.takeWhile_cons_of_pos (by simp [hcd]), h1]
    · rw [List.cons_append, List.dropWhile_cons_of_pos (by simp [hcd]), h2]

theorem twoDigit_length (xy : Nat) (h : xy ≤ 31) : (twoDigit xy).length = 2 := by
  by_cases h10 : xy < 10
  · rw [twoDigit, if_pos h10, toDigits_small xy h10]
    rfl
  · rw [twoDigit, if_neg h10, toDigits_two xy (by omega) (by omega)]
    rfl

theorem parseNat_twoDigit (xy : Nat) (h : xy ≤ 31) :
    parseNat (twoDigit xy) = some xy := by
  by_cases h10 : xy < 10
  · rw [twoDigit, if_pos h10, toDigits_small xy h10]
    show parseNatAux 0 ['0', digitChar' xy] = some xy
    have h0 : charToDigit '0' = some 0 := rfl
    simp [parseNatAux, h0, charToDigit_digitChar' xy h10]
  · rw [twoDigit, if_neg h10]
    simpa using parseNat_toDigits xy

theorem charToDigit_toNat_sub (c : Char) (d : Nat) (h : charToDigit c = some d) :
    ((c.toNat : Int) - ('0'.toNat : Int) = (d : Int)) ∧ d ≤ 9 := by
  unfold charToDigit at h
  split at h
  · rename_i hr
    injection h with h'
    rw [show '0'.toNat = 48 from rfl]
    omega
  · cases h

theorem charToDigit_ne_plus (c : Char) (d : Nat) (h : charToDigit c = some d) :
    c ≠ '+' := by
  intro he
  subst he
  rw [show charToDigit '+' = none from rfl] at h
  cases h

theorem string2price_valid (B xy : Nat) (zc : Char) (zv : Nat)
    (hxy : xy ≤ 31)
    (hzc : (zc = '+' ∧ zv = 4) ∨ (charToDigit zc = some zv ∧ zv ≤ 7)) :
    string2price (validString B xy zc)
      = some ((B : ℚ) + (xy : ℚ) / 32 + (zv : ℚ) / 256) := by
  obtain ⟨htake, hdrop⟩ :=
    takeWhile_digits (toDigits B) (twoDigit xy ++ [zc]) (toDigits_all_digits B)
  have htake2 : (twoDigit xy ++ [zc]).take 2 = twoDigit xy := by
    rw [← twoDigit_length xy hxy]
    exact List.take_left _ _
  have hget2 : (twoDigit xy ++ [zc])[2]? = some zc := by
    rw [show (2 : Nat) = (twoDigit xy).length from (twoDigit_length xy hxy).symm]
    simp
  simp only [string2price, validString, htake, hdrop, htake2, hget2,
    parseNat_toDigits, parseNat_twoDigit xy hxy]
  rcases hzc with ⟨rfl, rfl⟩ | ⟨hcd, hle⟩
  · rw [if_pos rfl, if_pos ⟨hxy, by omega, by omega⟩]
    norm_num
  · obtain ⟨hval, _⟩ := charToDigit_toNat_sub zc zv hcd
    rw [if_neg (charToDigit_ne_plus zc zv hcd), hval,
      if_pos ⟨hxy, by omega, by exact_mod_cast hle⟩]
    norm_num

theorem price2string_eval (B xy z : Nat) (hxy : xy ≤ 31) (hz : z ≤ 7) :
    price2string ((B : ℚ) + (xy : ℚ) / 32 + (z : ℚ) / 256)
      = toDigits B ++ '-' ::
          (twoDigit xy ++ [if z = 4 then '+' else digitChar' z]) := by
  have hxq : (xy : ℚ) ≤ 31 := by exact_mod_cast hxy
  have hzq : (z : ℚ) ≤ 7 := by exact_mod_cast hz
  have hfr0 : (0 : ℚ) ≤ (xy : ℚ) / 32 + (z : ℚ) / 256 := by positivity
  have hfr1 : (xy : ℚ) / 32 + (z : ℚ) / 256 < 1 := by linarith
  have hsum : (B : ℚ) + (xy : ℚ) / 32 + (z : ℚ) / 256
      = (B : ℚ) + ((xy : ℚ) / 32 + (z : ℚ) / 256) := by ring
  have hbase : ratTrunc ((B : ℚ) + ((xy : ℚ) / 32 + (z : ℚ) / 256)) = (B : Int) :=
    ratTrunc_natCast_add B _ hfr0 hfr1
  have hfrac : ((B : ℚ) + ((xy : ℚ) / 32 + (z : ℚ) / 256)) - (((B : Int) : Int) : ℚ)
      = (xy : ℚ) / 32 + (z : ℚ) / 256 := by push_cast; ring
  have h32 : ((xy : ℚ) / 32 + (z : ℚ) / 256) * 32 = (xy : ℚ) + (z : ℚ) / 8 := by
    ring
  have hz8 : (z : ℚ) / 8 < 1 := by linarith
  have hxyv : ratTrunc ((xy : ℚ) + (z : ℚ) / 8) = (xy : Int) :=
    ratTrunc_natCast_add xy _ (by positivity) hz8
  have h256 : ((xy : ℚ) / 32 + (z : ℚ) / 256) * 256 = ((8 * xy + z : Nat) : ℚ) := by
    push_cast
    ring
  have hzv : (ratTrunc (((8 * xy + z : Nat) : ℚ))).tmod 8 = (z : Int) := by
    rw [ratTrunc_natCast]
    push_cast
    rw [Int.tmod_eq_emod (by positivity) (by norm_num)]
    rw [show (8 * (xy : Int) + (z : Int)) = (z : Int) + (xy : Int) * 8 by ring,
      Int.add_mul_emod_self]
    exact Int.emod_eq_of_lt (by positivity) (by exact_mod_cast (by omega : z < 8))
  simp only [price2string, hsum, hbase, hfrac, h32, hxyv, h256, hzv]
  rw [intToChars_natCast B, intToChars_natCast xy]
  have hchar : (if (z : Int) = 4 then '+' else digitChar' (z : Int).toNat)
      = (if z = 4 then '+' else digitChar' z) := by
    by_cases h4 : z = 4
    · simp [h4]
    · rw [if_neg (by exact_mod_cast h4), if_neg h4]
      simp
  have hpad : (if (xy : Int) < 10 then (['0'] : List Char) else [])
      = (if xy < 10 then (['0'] : List Char) else []) := by
    by_cases h10 : xy < 10
    · rw [if_pos (by exact_mod_cast h10), if_pos h10]
    · rw [if_neg (by exact_mod_cast h10), if_neg h10]
  rw [hchar, hpad, twoDigit]

/-- CLAIM C5 (counterexample) — The decode/encode round-trip fails on the
valid string "99-164": the trailing digit '4' decodes to the same value as
'+' (4/256), and re-encoding renders that value as "99-16+". -/
theorem C5_roundtrip_counterexample :
    validString 99 16 '4' = ['9', '9', '-', '1', '6', '4'] ∧
    (string2price ['9', '9', '-', '1', '6', '4']).map price2string
      = some ['9', '9', '-', '1', '6', '+'] ∧
    (['9', '9', '-', '1', '6', '+'] : List Char)
      ≠ ['9', '9', '-', '1', '6', '4'] := by
  refine ⟨by decide, ?_, by decide⟩
  rw [show (['9', '9', '-', '1', '6', '4'] : List Char) = validString 99 16 '4'
    from by decide]
  rw [string2price_valid 99 16 '4' 4 (by omega) (Or.inr ⟨rfl, by omega⟩)]
  rw [Option.map_some']
  rw [price2string_eval 99 16 4 (by omega) (by omega)]
  decide

/-- CLAIM C5 (amended) — For every valid fractional price string B-XYz
with B a non-negative integer below 2^31 (the range on which the code's
`static_cast<int>` is defined and its `double` arithmetic on multiples of
1/256 is exact), 0 ≤ XY ≤ 31 (two digits), and z a digit in
{'0','1','2','3','5','6','7'} or '+' (the digit '4' is excluded: it
decodes to the same price as '+', which re-encodes as '+'), decoding with
`string2price` and re-encoding with `price2string` yields the original
string. -/
theorem C5_roundtrip_amended (B xy : Nat) (zc : Char)
    (hB : B < 2147483648) (hxy : xy ≤ 31)
    (hzc : zc ∈ ['0', '1', '2', '3', '5', '6', '7', '+']) :
    ∃ q, string2price (validString B xy zc) = some q ∧
      price2string q = validString B xy zc := by
  fin_cases hzc
  · exact ⟨_, string2price_valid B xy '0' 0 hxy (Or.inr ⟨rfl, by omega⟩),
      by rw [price2string_eval B xy 0 hxy (by omega)]; rfl⟩
  · exact ⟨_, string2price_valid B xy '1' 1 hxy (Or.inr ⟨rfl, by omega⟩),
      by rw [price2string_eval B xy 1 hxy (by omega)]; rfl⟩
  · exact ⟨_, string2price_valid B xy '2' 2 hxy (Or.inr ⟨rfl, by omega⟩),
      by rw [price2string_eval B xy 2 hxy (by omega)]; rfl⟩
  · exact ⟨_, string2price_valid B xy '3' 3 hxy (Or.inr ⟨rfl, by omega⟩),
      by rw [price2string_eval B xy 3 hxy (by omega)]; rfl⟩
  · exact ⟨_, string2price_valid B xy '5' 5 hxy (Or.inr ⟨rfl, by omega⟩),
      by rw [price2string_eval B xy 5 hxy (by omega)]; rfl⟩
  · exact ⟨_, string2price_valid B xy '6' 6 hxy (Or.inr ⟨rfl, by omega⟩),
      by rw [price2string_eval B xy 6 hxy (by omega)]; rfl⟩
  · exact ⟨_, string2price_valid B xy '7' 7 hxy (Or.inr ⟨rfl, by omega⟩),
      by rw [price2string_eval B xy 7 hxy (by omega)]; rfl⟩
  · exact ⟨_, string2price_valid B xy '+' 4 hxy (Or.inl ⟨rfl, rfl⟩),
      by rw [price2string_eval B xy 4 hxy (by omega)]; rfl⟩

/-- Witness for the amended C5 at the concrete string "99-16+". -/
theorem C5_roundtrip_amended_witness :
    (99 < 2147483648 ∧ 16 ≤ 31 ∧ '+' ∈ ['0', '1', '2', '3', '5', '6', '7', '+']) ∧
    ∃ q, string2price (validString 99 16 '+') = some q ∧
      price2string q = validString 99 16 '+' :=
  ⟨⟨by decide, by decide, by decide⟩,
   C5_roundtrip_amended 99 16 '+' (by decide) (by decide) (by decide)⟩

end FinTrading
